import Mathlib

/-!
Verification of the calculator corpus: a shallow embedding of the
arithmetic-expression evaluator the specification designs (tokenizer plus
recursive-descent parser/evaluator) together with the host-side history
operations of the CalculatorContext source file. Numbers are modelled as
rationals, standing in for exact decimal arithmetic on the inputs the
claims quantify over.
-/

namespace CalcSpec

/-- Modelled from the spec: the `Token` tagged value of section 3; the
source tree contains no tokenizer (the tutorial code calls a generic
string evaluator), so the token type follows the spec's data model
`{Number(value), Plus, Minus, Star, Slash, LParen, RParen}`. -/
inductive Token where
  | number (value : ℚ)
  | plus
  | minus
  | star
  | slash
  | lparen
  | rparen
deriving DecidableEq, Repr

/-- A token together with the index in the input string at which it
starts; the spec's errors name token positions. -/
structure PTok where
  tok : Token
  pos : Nat
deriving DecidableEq, Repr

/-- Modelled from the spec: the closed error taxonomy of section 7.
`unexpectedToken none i` is the "stream exhausted while expecting a
factor" variant the spec allows as "or equivalent". -/
inductive EvalError where
  | invalidCharacter (char : Char) (index : Nat)
  | emptyExpression
  | unexpectedToken (token : Option Token) (index : Nat)
  | unbalancedParentheses (index : Nat)
  | divisionByZero (dividendIndex : Nat) (divisorIndex : Nat)
deriving DecidableEq, Repr

/-- Numeric value of a digit character. -/
def charToRat (c : Char) : ℚ := ((c.toNat - 48 : ℕ) : ℚ)

/-- Value of a run of digit characters, most significant first. -/
def digitsVal (ds : List Char) : ℚ :=
  ds.foldl (fun a c => 10 * a + charToRat c) 0

/-- Value of a scanned number: digits, with at most one decimal point. -/
def numValue (ds : List Char) : ℚ :=
  let whole := ds.takeWhile (fun c => c ≠ '.')
  let frac := (ds.dropWhile (fun c => c ≠ '.')).drop 1
  digitsVal whole + digitsVal frac / (10 : ℚ) ^ frac.length

/-- Modelled from the spec: the number scanner of the Tokenizer
(section 4.1) — accumulate a maximal run of digits and at most one
decimal point; a second decimal point in the run is rejected at its
own index.  Returns the accumulated characters, the remaining input
and the position after the run. -/
def scanNumber : List Char → Nat → Bool → List Char →
    Except EvalError (List Char × List Char × Nat)
  | [], pos, _, acc => .ok (acc, [], pos)
  | c :: cs, pos, seenDot, acc =>
    if c.isDigit then scanNumber cs (pos + 1) seenDot (acc ++ [c])
    else if c = '.' then
      if seenDot then .error (.invalidCharacter '.' pos)
      else scanNumber cs (pos + 1) true (acc ++ [c])
    else .ok (acc, c :: cs, pos)

/-- Modelled from the spec: the Tokenizer of section 4.1 — scan left to
right, skip whitespace, map each operator character to its token,
accumulate number runs, and fail with `invalidCharacter` on anything
else.  `fuel` bounds the number of scanning steps; each step consumes
at least one character, so `cs.length + 1` steps always suffice. -/
def tokenizeAux : Nat → List Char → Nat → Except EvalError (List PTok)
  | 0, _, pos => .error (.invalidCharacter ' ' pos)
  | _ + 1, [], _ => .ok []
  | fuel + 1, c :: cs, pos =>
    if c.isWhitespace then tokenizeAux fuel cs (pos + 1)
    else if c = '+' then (tokenizeAux fuel cs (pos + 1)).map (⟨.plus, pos⟩ :: ·)
    else if c = '-' then (tokenizeAux fuel cs (pos + 1)).map (⟨.minus, pos⟩ :: ·)
    else if c = '*' then (tokenizeAux fuel cs (pos + 1)).map (⟨.star, pos⟩ :: ·)
    else if c = '/' then (tokenizeAux fuel cs (pos + 1)).map (⟨.slash, pos⟩ :: ·)
    else if c = '(' then (tokenizeAux fuel cs (pos + 1)).map (⟨.lparen, pos⟩ :: ·)
    else if c = ')' then (tokenizeAux fuel cs (pos + 1)).map (⟨.rparen, pos⟩ :: ·)
    else if c.isDigit then
      match scanNumber (c :: cs) pos false [] with
      | .ok (ds, rest, pos') =>
          (tokenizeAux fuel rest pos').map (⟨.number (numValue ds), pos⟩ :: ·)
      | .error e => .error e
    else .error (.invalidCharacter c pos)

/-- Modelled from the spec: the Tokenizer entry point — convert a raw
string into the ordered token stream. -/
def tokenize (s : String) : Except EvalError (List PTok) :=
  tokenizeAux (s.data.length + 1) s.data 0

mutual

/-- Modelled from the spec: `factor := NUMBER | '(' expression ')' | '-' factor`
(section 4.2).  Returns the value, the start index of the factor and the
unconsumed tokens.  A `)` where a factor is expected is an unmatched
close parenthesis; a missing `)` after a parenthesized expression is
reported at the offending token or at end of input (`endPos`). -/
def parseFactor : Nat → Nat → List PTok → Except EvalError (ℚ × Nat × List PTok)
  | 0, endPos, _ => .error (.unexpectedToken none endPos)
  | _ + 1, endPos, [] => .error (.unexpectedToken none endPos)
  | _ + 1, _, ⟨.number v, i⟩ :: rest => .ok (v, i, rest)
  | fuel + 1, endPos, ⟨.minus, i⟩ :: rest =>
    (parseFactor fuel endPos rest).map (fun r => (-r.1, i, r.2.2))
  | fuel + 1, endPos, ⟨.lparen, i⟩ :: rest =>
    match parseExpression fuel endPos rest with
    | .ok (v, _, ⟨.rparen, _⟩ :: rest') => .ok (v, i, rest')
    | .ok (_, _, ⟨t, j⟩ :: _) => .error (.unexpectedToken (some t) j)
    | .ok (_, _, []) => .error (.unbalancedParentheses endPos)
    | .error e => .error e
  | _ + 1, _, ⟨.rparen, i⟩ :: _ => .error (.unbalancedParentheses i)
  | _ + 1, _, ⟨t, i⟩ :: _ => .error (.unexpectedToken (some t) i)

/-- Modelled from the spec: the `(('*' | '/') factor)*` loop of the
`term` production, folding left-to-right; a division whose divisor is
exactly `0` fails with `divisionByZero`, naming the start index of the
accumulated dividend and of the divisor factor. -/
def parseTermLoop : Nat → Nat → ℚ → Nat → List PTok →
    Except EvalError (ℚ × Nat × List PTok)
  | 0, endPos, _, _, _ => .error (.unexpectedToken none endPos)
  | fuel + 1, endPos, acc, accIdx, ⟨.star, _⟩ :: rest =>
    match parseFactor fuel endPos rest with
    | .ok (v, _, ts) => parseTermLoop fuel endPos (acc * v) accIdx ts
    | .error e => .error e
  | fuel + 1, endPos, acc, accIdx, ⟨.slash, _⟩ :: rest =>
    match parseFactor fuel endPos rest with
    | .ok (v, vIdx, ts) =>
        if v = 0 then .error (.divisionByZero accIdx vIdx)
        else parseTermLoop fuel endPos (acc / v) accIdx ts
    | .error e => .error e
  | _ + 1, _, acc, accIdx, ts => .ok (acc, accIdx, ts)

/-- Modelled from the spec: `term := factor (('*' | '/') factor)*`. -/
def parseTerm : Nat → Nat → List PTok → Except EvalError (ℚ × Nat × List PTok)
  | 0, endPos, _ => .error (.unexpectedToken none endPos)
  | fuel + 1, endPos, ts =>
    match parseFactor fuel endPos ts with
    | .ok (v, i, ts') => parseTermLoop fuel endPos v i ts'
    | .error e => .error e

/-- Modelled from the spec: the `(('+' | '-') term)*` loop of the
`expression` production, folding left-to-right. -/
def parseExpressionLoop : Nat → Nat → ℚ → Nat → List PTok →
    Except EvalError (ℚ × Nat × List PTok)
  | 0, endPos, _, _, _ => .error (.unexpectedToken none endPos)
  | fuel + 1, endPos, acc, accIdx, ⟨.plus, _⟩ :: rest =>
    match parseTerm fuel endPos rest with
    | .ok (v, _, ts) => parseExpressionLoop fuel endPos (acc + v) accIdx ts
    | .error e => .error e
  | fuel + 1, endPos, acc, accIdx, ⟨.minus, _⟩ :: rest =>
    match parseTerm fuel endPos rest with
    | .ok (v, _, ts) => parseExpressionLoop fuel endPos (acc - v) accIdx ts
    | .error e => .error e
  | _ + 1, _, acc, accIdx, ts => .ok (acc, accIdx, ts)

/-- Modelled from the spec: `expression := term (('+' | '-') term)*`. -/
def parseExpression : Nat → Nat → List PTok → Except EvalError (ℚ × Nat × List PTok)
  | 0, endPos, _ => .error (.unexpectedToken none endPos)
  | fuel + 1, endPos, ts =>
    match parseTerm fuel endPos ts with
    | .ok (v, i, ts') => parseExpressionLoop fuel endPos v i ts'
    | .error e => .error e

end

/-- Modelled from the spec: the core public surface
`evaluate(expression) -> Result<number, EvalError>` of section 6 — the
source tree has no such function (the tutorial's `handleCalculate` calls
the generic string evaluator the spec bans), so it is built from the
spec's Tokenizer and Parser/Evaluator designs.  Zero tokens fail with
`emptyExpression`; a leftover close parenthesis after a complete
expression is an unmatched close; any other leftover token is
`unexpectedToken`. -/
def evaluate (expression : String) : Except EvalError ℚ :=
  match tokenize expression with
  | .error e => .error e
  | .ok [] => .error .emptyExpression
  | .ok ts =>
    match parseExpression (4 * ts.length + 4) expression.length ts with
    | .ok (v, _, []) => .ok v
    | .ok (_, _, ⟨.rparen, i⟩ :: _) => .error (.unbalancedParentheses i)
    | .ok (_, _, ⟨t, i⟩ :: _) => .error (.unexpectedToken (some t) i)
    | .error e => .error e

/-- The characters the Tokenizer accepts: digits, the decimal point,
whitespace, the four operators and parentheses. -/
def allowedChar (c : Char) : Bool :=
  c.isWhitespace || c.isDigit || c = '.' || c = '+' || c = '-' || c = '*' ||
    c = '/' || c = '(' || c = ')'

/-! ### Host model: the CalculatorContext source file -/

/-- The `Calculation` record of the CalculatorContext source file:
`{expression: string, result: string}`. -/
structure Calculation where
  expression : String
  result : String
deriving DecidableEq, Repr

/-- The `addCalculation` updater of the CalculatorProvider source:
`setHistory((prevHistory) => [calculation, ...prevHistory])` — the new
calculation is placed before the previous history. -/
def addCalculation (calculation : Calculation) (prevHistory : List Calculation) :
    List Calculation :=
  calculation :: prevHistory

/-- The observable state `handleCalculate` touches: the current input
string and the history list. -/
structure CalcState where
  input : String
  history : List Calculation
deriving DecidableEq, Repr

/-- The `handleCalculate` handler of the Calculator source file, with the
string evaluator abstracted as `evalFn` (`none` models a thrown
exception): on success it adds `{expression: input, result}` to the
history and replaces the input with the result; on failure the catch
branch only alerts, leaving input and history untouched. -/
def handleCalculate (evalFn : String → Option String) (st : CalcState) : CalcState :=
  match evalFn st.input with
  | some result =>
      { input := result
        history := addCalculation ⟨st.input, result⟩ st.history }
  | none => st

/-- The context value of the CalculatorContext source file: the history
list and the `addCalculation` operation (a closure over the provider's
state, modelled as the history it would produce). -/
structure CalculatorContextType where
  history : List Calculation
  addCalculation : Calculation → List Calculation

/-- The `useCalculator` hook of the CalculatorContext source file: with
no provider in scope the context is `undefined` and the hook throws;
otherwise it returns the context value. -/
def useCalculator (context : Option CalculatorContextType) :
    Except String CalculatorContextType :=
  match context with
  | none => .error "useCalculator must be used within a CalculatorProvider"
  | some ctx => .ok ctx

/-! ### Standard arithmetic: abstract expressions, their value, and their
printed form under standard precedence and left-to-right associativity -/

/-- Abstract arithmetic expressions over integer literals: the
"standard arithmetic" reference model for the evaluator's inputs. -/
inductive Expr where
  | num (n : ℕ)
  | neg (a : Expr)
  | add (a b : Expr)
  | sub (a b : Expr)
  | mul (a b : Expr)
  | div (a b : Expr)
deriving DecidableEq, Repr

/-- The value of an expression under standard arithmetic, evaluated
left to right; `none` exactly when a division by zero is encountered. -/
def exprVal : Expr → Option ℚ
  | .num n => some n
  | .neg a =>
    match exprVal a with
    | some x => some (-x)
    | none => none
  | .add a b =>
    match exprVal a, exprVal b with
    | some x, some y => some (x + y)
    | _, _ => none
  | .sub a b =>
    match exprVal a, exprVal b with
    | some x, some y => some (x - y)
    | _, _ => none
  | .mul a b =>
    match exprVal a, exprVal b with
    | some x, some y => some (x * y)
    | _, _ => none
  | .div a b =>
    match exprVal a, exprVal b with
    | some x, some y => if y = 0 then none else some (x / y)
    | _, _ => none

/-- The decimal digit character for `n < 10`. -/
def digitChar (n : ℕ) : Char := Char.ofNat (48 + n)

/-- Decimal digits of `n`, most significant first; `fuel` bounds the
recursion depth (`n + 1` always suffices). -/
def natDigitsAux : ℕ → ℕ → List Char
  | 0, _ => []
  | fuel + 1, n =>
    if n < 10 then [digitChar n]
    else natDigitsAux fuel (n / 10) ++ [digitChar (n % 10)]

/-- Decimal digits of `n`, most significant first. -/
def natDigits (n : ℕ) : List Char := natDigitsAux (n + 1) n

mutual

/-- Characters of an expression printed at `expression` level: `*` and
`/` bind tighter than `+` and `-`, equal precedence groups left to
right, and parentheses are inserted exactly where grouping deviates
from that. -/
def chrsE : Expr → List Char
  | .add a b => chrsE a ++ '+' :: chrsT b
  | .sub a b => chrsE a ++ '-' :: chrsT b
  | .mul a b => chrsT a ++ '*' :: chrsF b
  | .div a b => chrsT a ++ '/' :: chrsF b
  | .num n => natDigits n
  | .neg a => '-' :: chrsF a

/-- Characters of an expression printed at `term` level. -/
def chrsT : Expr → List Char
  | .mul a b => chrsT a ++ '*' :: chrsF b
  | .div a b => chrsT a ++ '/' :: chrsF b
  | .add a b => '(' :: (chrsE a ++ '+' :: chrsT b) ++ [')']
  | .sub a b => '(' :: (chrsE a ++ '-' :: chrsT b) ++ [')']
  | .num n => natDigits n
  | .neg a => '-' :: chrsF a

/-- Characters of an expression printed at `factor` level. -/
def chrsF : Expr → List Char
  | .num n => natDigits n
  | .neg a => '-' :: chrsF a
  | .add a b => '(' :: (chrsE a ++ '+' :: chrsT b) ++ [')']
  | .sub a b => '(' :: (chrsE a ++ '-' :: chrsT b) ++ [')']
  | .mul a b => '(' :: (chrsT a ++ '*' :: chrsF b) ++ [')']
  | .div a b => '(' :: (chrsT a ++ '/' :: chrsF b) ++ [')']

end

/-- An expression rendered as a string, at `expression` level. -/
def ppE (e : Expr) : String := String.mk (chrsE e)

mutual

/-- Tokens of an expression at `expression` level. -/
def toksE : Expr → List Token
  | .add a b => toksE a ++ .plus :: toksT b
  | .sub a b => toksE a ++ .minus :: toksT b
  | .mul a b => toksT a ++ .star :: toksF b
  | .div a b => toksT a ++ .slash :: toksF b
  | .num n => [.number n]
  | .neg a => .minus :: toksF a

/-- Tokens of an expression at `term` level. -/
def toksT : Expr → List Token
  | .mul a b => toksT a ++ .star :: toksF b
  | .div a b => toksT a ++ .slash :: toksF b
  | .add a b => .lparen :: (toksE a ++ .plus :: toksT b) ++ [.rparen]
  | .sub a b => .lparen :: (toksE a ++ .minus :: toksT b) ++ [.rparen]
  | .num n => [.number n]
  | .neg a => .minus :: toksF a

/-- Tokens of an expression at `factor` level. -/
def toksF : Expr → List Token
  | .num n => [.number n]
  | .neg a => .minus :: toksF a
  | .add a b => .lparen :: (toksE a ++ .plus :: toksT b) ++ [.rparen]
  | .sub a b => .lparen :: (toksE a ++ .minus :: toksT b) ++ [.rparen]
  | .mul a b => .lparen :: (toksT a ++ .star :: toksF b) ++ [.rparen]
  | .div a b => .lparen :: (toksT a ++ .slash :: toksF b) ++ [.rparen]

end

/-- Fuel consumed along the left spine of the expression-level loop. -/
def costE : Expr → ℕ
  | .add a _ => costE a + 1
  | .sub a _ => costE a + 1
  | _ => 1

/-- Fuel consumed along the left spine of the term-level loop. -/
def costT : Expr → ℕ
  | .mul a _ => costT a + 1
  | .div a _ => costT a + 1
  | _ => 1

/-- The character after a printed number must not extend the number:
not a digit and not a decimal point. -/
def boundaryOk (cs : List Char) : Prop :=
  ∀ c, cs.head? = some c → c.isDigit = false ∧ c ≠ '.'

/-- Tokens at which a `term` parse stops: not `*` and not `/`. -/
def restTOk (ts : List PTok) : Prop :=
  ∀ p, ts.head? = some p → p.tok ≠ .star ∧ p.tok ≠ .slash

/-- Tokens at which an `expression` parse stops: none of the four
binary operators. -/
def restAOk (ts : List PTok) : Prop :=
  ∀ p, ts.head? = some p →
    p.tok ≠ .plus ∧ p.tok ≠ .minus ∧ p.tok ≠ .star ∧ p.tok ≠ .slash

/-! ### Tokenizer facts -/

/-- The Tokenizer maps an all-whitespace input to zero tokens. -/
theorem tokenizeAux_whitespace (fuel : Nat) :
    ∀ cs pos, cs.length < fuel → (∀ c ∈ cs, c.isWhitespace = true) →
      tokenizeAux fuel cs pos = .ok [] := by
  induction fuel with
  | zero => intro cs pos h _; omega
  | succ n ih =>
    intro cs pos h hw
    cases cs with
    | nil => rfl
    | cons c cs' =>
      have hc : c.isWhitespace = true := hw c (by simp)
      simp only [tokenizeAux, hc, if_true]
      exact ih cs' (pos + 1) (by simp at h; omega)
        (fun d hd => hw d (by simp [hd]))

/-! ### Digits and numbers -/

theorem toNat_digitChar (n : ℕ) (h : n < 10) : (digitChar n).toNat - 48 = n := by
  interval_cases n <;> decide

theorem isDigit_digitChar (n : ℕ) (h : n < 10) : (digitChar n).isDigit = true := by
  interval_cases n <;> decide

theorem digitChar_ne_dot (n : ℕ) (h : n < 10) : digitChar n ≠ '.' := by
  interval_cases n <;> decide

theorem charToRat_digitChar (n : ℕ) (h : n < 10) :
    charToRat (digitChar n) = (n : ℚ) := by
  rw [charToRat, toNat_digitChar n h]

theorem natDigitsAux_mem (fuel : ℕ) :
    ∀ n, n < fuel → ∀ c ∈ natDigitsAux fuel n, c.isDigit = true ∧ c ≠ '.' := by
  induction fuel with
  | zero => intro n h; omega
  | succ m ih =>
    intro n h c hc
    rw [natDigitsAux] at hc
    by_cases h10 : n < 10
    · simp [h10] at hc
      exact hc ▸ ⟨isDigit_digitChar n h10, digitChar_ne_dot n h10⟩
    · simp [h10] at hc
      rcases hc with hc | hc
      · have hdiv : n / 10 < n := Nat.div_lt_self (by omega) (by omega)
        exact ih (n / 10) (by omega) c hc
      · have hm : n % 10 < 10 := Nat.mod_lt n (by omega)
        exact hc ▸ ⟨isDigit_digitChar _ hm, digitChar_ne_dot _ hm⟩

theorem natDigits_mem (n : ℕ) : ∀ c ∈ natDigits n, c.isDigit = true ∧ c ≠ '.' :=
  natDigitsAux_mem (n + 1) n (by omega)

theorem natDigits_ne_nil (n : ℕ) : natDigits n ≠ [] := by
  rw [natDigits, natDigitsAux]
  by_cases h10 : n < 10 <;> simp [h10]

theorem foldl_natDigitsAux (fuel : ℕ) :
    ∀ n, n < fuel → ∀ a : ℚ,
      (natDigitsAux fuel n).foldl (fun a c => 10 * a + charToRat c) a =
        a * 10 ^ (natDigitsAux fuel n).length + n := by
  induction fuel with
  | zero => intro n h; omega
  | succ m ih =>
    intro n h a
    rw [natDigitsAux]
    by_cases h10 : n < 10
    · simp [h10, charToRat_digitChar n h10]
      ring
    · have hdiv : n / 10 < n := Nat.div_lt_self (by omega) (by omega)
      have hm : n % 10 < 10 := Nat.mod_lt n (by omega)
      simp only [h10, if_false, List.foldl_append, List.foldl_cons, List.foldl_nil,
        List.length_append, List.length_cons, List.length_nil]
      rw [ih (n / 10) (by omega) a, charToRat_digitChar _ hm]
      have hcast : ((10 * (n / 10) + n % 10 : ℕ) : ℚ) = (n : ℚ) := by
        congr 1
        omega
      push_cast at hcast
      linear_combination hcast

theorem digitsVal_natDigits (n : ℕ) : digitsVal (natDigits n) = (n : ℚ) := by
  have := foldl_natDigitsAux (n + 1) n (by omega) 0
  simpa [digitsVal, natDigits] using this

theorem takeWhile_of_forall {p : Char → Bool} :
    ∀ l : List Char, (∀ c ∈ l, p c = true) →
      l.takeWhile p = l ∧ l.dropWhile p = [] := by
  intro l
  induction l with
  | nil => intro _; exact ⟨rfl, rfl⟩
  | cons c cs ih =>
    intro h
    have hc : p c = true := h c (by simp)
    have := ih (fun d hd => h d (by simp [hd]))
    simp [List.takeWhile, List.dropWhile, hc, this.1, this.2]

theorem numValue_natDigits (n : ℕ) : numValue (natDigits n) = (n : ℚ) := by
  have hmem := natDigits_mem n
  have hall := takeWhile_of_forall (p := fun c => decide (c ≠ '.')) (natDigits n)
    (fun c hc => by simp [(hmem c hc).2])
  rw [numValue]
  simp only [hall.1, hall.2, List.drop_nil, List.length_nil, pow_zero]
  rw [digitsVal_natDigits]
  simp [digitsVal]

/-! ### Number scanning -/

theorem scanNumber_digits (ds : List Char) :
    ∀ pos seen acc rest, (∀ c ∈ ds, c.isDigit = true) → boundaryOk rest →
      scanNumber (ds ++ rest) pos seen acc = .ok (acc ++ ds, rest, pos + ds.length) := by
  induction ds with
  | nil =>
    intro pos seen acc rest _ hb
    cases rest with
    | nil => simp [scanNumber]
    | cons c cs =>
      obtain ⟨hd, hdot⟩ := hb c rfl
      rw [List.nil_append, scanNumber, if_neg (by simp [hd]), if_neg hdot]
      simp
  | cons d ds ih =>
    intro pos seen acc rest hds hb
    have hd : d.isDigit = true := hds d (by simp)
    rw [List.cons_append, scanNumber, if_pos hd,
      ih (pos + 1) seen (acc ++ [d]) rest (fun c hc => hds c (by simp [hc])) hb]
    simp [List.append_assoc]
    omega

theorem scanNumber_consumed :
    ∀ cs pos seen acc ds rest pos',
      scanNumber cs pos seen acc = .ok (ds, rest, pos') →
      ∃ pre, cs = pre ++ rest ∧ (∀ c ∈ pre, c.isDigit = true ∨ c = '.') ∧
        pos' = pos + pre.length := by
  intro cs
  induction cs with
  | nil =>
    intro pos seen acc ds rest pos' h
    rw [scanNumber] at h
    refine ⟨[], ?_, by simp, ?_⟩ <;> cases h <;> simp
  | cons c cs ih =>
    intro pos seen acc ds rest pos' h
    rw [scanNumber] at h
    by_cases hd : c.isDigit = true
    · rw [if_pos hd] at h
      obtain ⟨pre, hpre, hall, hpos⟩ := ih (pos + 1) seen (acc ++ [c]) ds rest pos' h
      refine ⟨c :: pre, by simp [hpre], ?_, by simp [hpos]; omega⟩
      intro x hx
      rcases List.mem_cons.mp hx with hx | hx
      · subst hx; exact Or.inl hd
      · exact hall x hx
    · rw [if_neg hd] at h
      by_cases hdot : c = '.'
      · rw [if_pos hdot] at h
        cases seen with
        | true => rw [if_pos rfl] at h; cases h
        | false =>
          rw [if_neg (by simp)] at h
          obtain ⟨pre, hpre, hall, hpos⟩ := ih (pos + 1) true (acc ++ [c]) ds rest pos' h
          refine ⟨c :: pre, by simp [hpre], ?_, by simp [hpos]; omega⟩
          intro x hx
          rcases List.mem_cons.mp hx with hx | hx
          · subst hx; exact Or.inr hdot
          · exact hall x hx
      · rw [if_neg hdot] at h
        cases h
        exact ⟨[], by simp, by simp, by simp⟩

theorem scanNumber_error :
    ∀ cs pos seen acc err, scanNumber cs pos seen acc = .error err →
      ∃ k, err = .invalidCharacter '.' (pos + k) ∧ cs.get? k = some '.' := by
  intro cs
  induction cs with
  | nil => intro pos seen acc err h; rw [scanNumber] at h; cases h
  | cons c cs ih =>
    intro pos seen acc err h
    rw [scanNumber] at h
    by_cases hd : c.isDigit = true
    · rw [if_pos hd] at h
      obtain ⟨k, hk, hget⟩ := ih (pos + 1) seen (acc ++ [c]) err h
      exact ⟨k + 1, by rw [hk]; congr 1; omega, by simpa using hget⟩
    · rw [if_neg hd] at h
      by_cases hdot : c = '.'
      · rw [if_pos hdot] at h
        cases seen with
        | true =>
          rw [if_pos rfl] at h
          cases h
          exact ⟨0, by simp, by simp [hdot]⟩
        | false =>
          rw [if_neg (by simp)] at h
          obtain ⟨k, hk, hget⟩ := ih (pos + 1) true (acc ++ [c]) err h
          exact ⟨k + 1, by rw [hk]; congr 1; omega, by simpa using hget⟩
      · rw [if_neg hdot] at h
        cases h

/-! ### Tokenization of printed expressions -/

/-- Characters `cs` tokenize, from every position and with ample fuel,
to a token stream whose tokens are `T`. -/
def TokOk (cs : List Char) (T : List Token) : Prop :=
  ∀ fuel pos, cs.length < fuel →
    ∃ pts, tokenizeAux fuel cs pos = .ok pts ∧ pts.map PTok.tok = T

theorem tokOk_nil : TokOk [] [] := by
  intro fuel pos h
  cases fuel with
  | zero => omega
  | succ m => exact ⟨[], rfl, rfl⟩

theorem tokOk_cons_plus {cs T} (h : TokOk cs T) : TokOk ('+' :: cs) (.plus :: T) := by
  intro fuel pos hlen
  cases fuel with
  | zero => omega
  | succ m =>
    obtain ⟨pts, hok, hmap⟩ := h m (pos + 1) (by simp at hlen; omega)
    refine ⟨⟨.plus, pos⟩ :: pts, ?_, by simp [hmap]⟩
    rw [tokenizeAux, if_neg (by decide), if_pos rfl, hok]
    rfl

theorem tokOk_cons_minus {cs T} (h : TokOk cs T) : TokOk ('-' :: cs) (.minus :: T) := by
  intro fuel pos hlen
  cases fuel with
  | zero => omega
  | succ m =>
    obtain ⟨pts, hok, hmap⟩ := h m (pos + 1) (by simp at hlen; omega)
    refine ⟨⟨.minus, pos⟩ :: pts, ?_, by simp [hmap]⟩
    rw [tokenizeAux, if_neg (by decide), if_neg (by decide), if_pos rfl, hok]
    rfl

theorem tokOk_cons_star {cs T} (h : TokOk cs T) : TokOk ('*' :: cs) (.star :: T) := by
  intro fuel pos hlen
  cases fuel with
  | zero => omega
  | succ m =>
    obtain ⟨pts, hok, hmap⟩ := h m (pos + 1) (by simp at hlen; omega)
    refine ⟨⟨.star, pos⟩ :: pts, ?_, by simp [hmap]⟩
    rw [tokenizeAux, if_neg (by decide), if_neg (by decide), if_neg (by decide),
      if_pos rfl, hok]
    rfl

theorem tokOk_cons_slash {cs T} (h : TokOk cs T) : TokOk ('/' :: cs) (.slash :: T) := by
  intro fuel pos hlen
  cases fuel with
  | zero => omega
  | succ m =>
    obtain ⟨pts, hok, hmap⟩ := h m (pos + 1) (by simp at hlen; omega)
    refine ⟨⟨.slash, pos⟩ :: pts, ?_, by simp [hmap]⟩
    rw [tokenizeAux, if_neg (by decide), if_neg (by decide), if_neg (by decide),
      if_neg (by decide), if_pos rfl, hok]
    rfl

theorem tokOk_cons_lparen {cs T} (h : TokOk cs T) : TokOk ('(' :: cs) (.lparen :: T) := by
  intro fuel pos hlen
  cases fuel with
  | zero => omega
  | succ m =>
    obtain ⟨pts, hok, hmap⟩ := h m (pos + 1) (by simp at hlen; omega)
    refine ⟨⟨.lparen, pos⟩ :: pts, ?_, by simp [hmap]⟩
    rw [tokenizeAux, if_neg (by decide), if_neg (by decide), if_neg (by decide),
      if_neg (by decide), if_neg (by decide), if_pos rfl, hok]
    rfl

theorem tokOk_cons_rparen {cs T} (h : TokOk cs T) : TokOk (')' :: cs) (.rparen :: T) := by
  intro fuel pos hlen
  cases fuel with
  | zero => omega
  | succ m =>
    obtain ⟨pts, hok, hmap⟩ := h m (pos + 1) (by simp at hlen; omega)
    refine ⟨⟨.rparen, pos⟩ :: pts, ?_, by simp [hmap]⟩
    rw [tokenizeAux, if_neg (by decide), if_neg (by decide), if_neg (by decide),
      if_neg (by decide), if_neg (by decide), if_neg (by decide), if_pos rfl, hok]
    rfl

theorem not_ws_of_isDigit {c : Char} (h : c.isDigit = true) :
    ¬(c.isWhitespace = true) := by
  intro hw
  have hx : ((c = ' ' ∨ c = '\t') ∨ c = '\x0d') ∨ c = '\n' := by
    simpa [Char.isWhitespace] using hw
  rcases hx with ((rfl | rfl) | rfl) | rfl <;> exact absurd h (by decide)

theorem ne_of_isDigit {c : Char} (h : c.isDigit = true) (d : Char)
    (hd : d.isDigit = false) : c ≠ d := by
  intro hcd
  subst hcd
  rw [h] at hd
  cases hd

theorem tokOk_number {cs T} (n : ℕ) (hb : boundaryOk cs) (h : TokOk cs T) :
    TokOk (natDigits n ++ cs) (.number (n : ℚ) :: T) := by
  intro fuel pos hlen
  cases fuel with
  | zero => omega
  | succ m =>
    have hmem := natDigits_mem n
    obtain ⟨d, ds, hnd⟩ : ∃ d ds, natDigits n = d :: ds := by
      cases hnd : natDigits n with
      | nil => exact absurd hnd (natDigits_ne_nil n)
      | cons d ds => exact ⟨d, ds, rfl⟩
    have hd : d.isDigit = true := (hmem d (by rw [hnd]; simp)).1
    have hscan := scanNumber_digits (natDigits n) pos false [] cs
      (fun c hc => (hmem c hc).1) hb
    obtain ⟨pts, hok, hmap⟩ := h m (pos + (natDigits n).length)
      (by rw [hnd] at hlen; simp at hlen; omega)
    refine ⟨⟨.number (numValue (natDigits n)), pos⟩ :: pts, ?_,
      by simp [hmap, numValue_natDigits]⟩
    rw [hnd] at hscan hok ⊢
    rw [List.cons_append] at hscan
    simp only [List.nil_append] at hscan
    rw [List.cons_append, tokenizeAux,
      if_neg (not_ws_of_isDigit hd),
      if_neg (ne_of_isDigit hd '+' (by decide)),
      if_neg (ne_of_isDigit hd '-' (by decide)),
      if_neg (ne_of_isDigit hd '*' (by decide)),
      if_neg (ne_of_isDigit hd '/' (by decide)),
      if_neg (ne_of_isDigit hd '(' (by decide)),
      if_neg (ne_of_isDigit hd ')' (by decide)),
      if_pos hd, hscan]
    simp only [hok, Except.map]

theorem boundaryOk_nil : boundaryOk [] := by
  intro d hd
  simp at hd

theorem boundaryOk_cons {c : Char} (h1 : c.isDigit = false) (h2 : c ≠ '.')
    (cs : List Char) : boundaryOk (c :: cs) := by
  intro d hd
  simp at hd
  subst hd
  exact ⟨h1, h2⟩

/-- A printed expression, followed by characters that tokenize to `T`
across a non-number boundary, tokenizes to its tokens followed by `T`:
stated for all three grammar levels at once. -/
theorem tokOk_chrs (e : Expr) :
    (∀ cs T, boundaryOk cs → TokOk cs T → TokOk (chrsE e ++ cs) (toksE e ++ T)) ∧
      (∀ cs T, boundaryOk cs → TokOk cs T → TokOk (chrsT e ++ cs) (toksT e ++ T)) ∧
      (∀ cs T, boundaryOk cs → TokOk cs T → TokOk (chrsF e ++ cs) (toksF e ++ T)) := by
  induction e with
  | num n =>
    refine ⟨?_, ?_, ?_⟩ <;>
      · intro cs T hb ht
        simpa [chrsE, chrsT, chrsF, toksE, toksT, toksF] using tokOk_number n hb ht
  | neg a ih =>
    obtain ⟨_, _, ihF⟩ := ih
    have hF : ∀ cs T, boundaryOk cs → TokOk cs T →
        TokOk (('-' :: chrsF a) ++ cs) ((.minus :: toksF a) ++ T) := by
      intro cs T hb ht
      simpa using tokOk_cons_minus (ihF cs T hb ht)
    refine ⟨?_, ?_, ?_⟩ <;>
      · intro cs T hb ht
        simpa [chrsE, chrsT, chrsF, toksE, toksT, toksF] using hF cs T hb ht
  | add a b iha ihb =>
    obtain ⟨ihaE, _, _⟩ := iha
    obtain ⟨_, ihbT, _⟩ := ihb
    have hE : ∀ cs T, boundaryOk cs → TokOk cs T →
        TokOk ((chrsE a ++ '+' :: chrsT b) ++ cs) ((toksE a ++ .plus :: toksT b) ++ T) := by
      intro cs T hb ht
      have h2 := tokOk_cons_plus (ihbT cs T hb ht)
      have h3 := ihaE ('+' :: (chrsT b ++ cs)) (.plus :: (toksT b ++ T))
        (boundaryOk_cons (by decide) (by decide) _) h2
      simpa [List.append_assoc] using h3
    have hParen : ∀ cs T, boundaryOk cs → TokOk cs T →
        TokOk (('(' :: (chrsE a ++ '+' :: chrsT b) ++ [')']) ++ cs)
          ((.lparen :: (toksE a ++ .plus :: toksT b) ++ [.rparen]) ++ T) := by
      intro cs T hb ht
      have h2 := hE (')' :: cs) (.rparen :: T)
        (boundaryOk_cons (by decide) (by decide) _) (tokOk_cons_rparen ht)
      have h3 := tokOk_cons_lparen h2
      simpa [List.append_assoc] using h3
    exact ⟨fun cs T hb ht => by simpa [chrsE, toksE] using hE cs T hb ht,
      fun cs T hb ht => by simpa [chrsT, toksT] using hParen cs T hb ht,
      fun cs T hb ht => by simpa [chrsF, toksF] using hParen cs T hb ht⟩
  | sub a b iha ihb =>
    obtain ⟨ihaE, _, _⟩ := iha
    obtain ⟨_, ihbT, _⟩ := ihb
    have hE : ∀ cs T, boundaryOk cs → TokOk cs T →
        TokOk ((chrsE a ++ '-' :: chrsT b) ++ cs) ((toksE a ++ .minus :: toksT b) ++ T) := by
      intro cs T hb ht
      have h2 := tokOk_cons_minus (ihbT cs T hb ht)
      have h3 := ihaE ('-' :: (chrsT b ++ cs)) (.minus :: (toksT b ++ T))
        (boundaryOk_cons (by decide) (by decide) _) h2
      simpa [List.append_assoc] using h3
    have hParen : ∀ cs T, boundaryOk cs → TokOk cs T →
        TokOk (('(' :: (chrsE a ++ '-' :: chrsT b) ++ [')']) ++ cs)
          ((.lparen :: (toksE a ++ .minus :: toksT b) ++ [.rparen]) ++ T) := by
      intro cs T hb ht
      have h2 := hE (')' :: cs) (.rparen :: T)
        (boundaryOk_cons (by decide) (by decide) _) (tokOk_cons_rparen ht)
      have h3 := tokOk_cons_lparen h2
      simpa [List.append_assoc] using h3
    exact ⟨fun cs T hb ht => by simpa [chrsE, toksE] using hE cs T hb ht,
      fun cs T hb ht => by simpa [chrsT, toksT] using hParen cs T hb ht,
      fun cs T hb ht => by simpa [chrsF, toksF] using hParen cs T hb ht⟩
  | mul a b iha ihb =>
    obtain ⟨_, ihaT, _⟩ := iha
    obtain ⟨_, _, ihbF⟩ := ihb
    have hT : ∀ cs T, boundaryOk cs → TokOk cs T →
        TokOk ((chrsT a ++ '*' :: chrsF b) ++ cs) ((toksT a ++ .star :: toksF b) ++ T) := by
      intro cs T hb ht
      have h2 := tokOk_cons_star (ihbF cs T hb ht)
      have h3 := ihaT ('*' :: (chrsF b ++ cs)) (.star :: (toksF b ++ T))
        (boundaryOk_cons (by decide) (by decide) _) h2
      simpa [List.append_assoc] using h3
    have hParen : ∀ cs T, boundaryOk cs → TokOk cs T →
        TokOk (('(' :: (chrsT a ++ '*' :: chrsF b) ++ [')']) ++ cs)
          ((.lparen :: (toksT a ++ .star :: toksF b) ++ [.rparen]) ++ T) := by
      intro cs T hb ht
      have h2 := hT (')' :: cs) (.rparen :: T)
        (boundaryOk_cons (by decide) (by decide) _) (tokOk_cons_rparen ht)
      have h3 := tokOk_cons_lparen h2
      simpa [List.append_assoc] using h3
    exact ⟨fun cs T hb ht => by simpa [chrsE, toksE] using hT cs T hb ht,
      fun cs T hb ht => by simpa [chrsT, toksT] using hT cs T hb ht,
      fun cs T hb ht => by simpa [chrsF, toksF] using hParen cs T hb ht⟩
  | div a b iha ihb =>
    obtain ⟨_, ihaT, _⟩ := iha
    obtain ⟨_, _, ihbF⟩ := ihb
    have hT : ∀ cs T, boundaryOk cs → TokOk cs T →
        TokOk ((chrsT a ++ '/' :: chrsF b) ++ cs) ((toksT a ++ .slash :: toksF b) ++ T) := by
      intro cs T hb ht
      have h2 := tokOk_cons_slash (ihbF cs T hb ht)
      have h3 := ihaT ('/' :: (chrsF b ++ cs)) (.slash :: (toksF b ++ T))
        (boundaryOk_cons (by decide) (by decide) _) h2
      simpa [List.append_assoc] using h3
    have hParen : ∀ cs T, boundaryOk cs → TokOk cs T →
        TokOk (('(' :: (chrsT a ++ '/' :: chrsF b) ++ [')']) ++ cs)
          ((.lparen :: (toksT a ++ .slash :: toksF b) ++ [.rparen]) ++ T) := by
      intro cs T hb ht
      have h2 := hT (')' :: cs) (.rparen :: T)
        (boundaryOk_cons (by decide) (by decide) _) (tokOk_cons_rparen ht)
      have h3 := tokOk_cons_lparen h2
      simpa [List.append_assoc] using h3
    exact ⟨fun cs T hb ht => by simpa [chrsE, toksE] using hT cs T hb ht,
      fun cs T hb ht => by simpa [chrsT, toksT] using hT cs T hb ht,
      fun cs T hb ht => by simpa [chrsF, toksF] using hParen cs T hb ht⟩

/-- Tokenizing a printed expression succeeds with the expression's
token sequence. -/
theorem tokenize_ppE (e : Expr) :
    ∃ pts, tokenize (ppE e) = .ok pts ∧ pts.map PTok.tok = toksE e := by
  have h := (tokOk_chrs e).1 [] [] boundaryOk_nil tokOk_nil
  simp only [List.append_nil] at h
  have := h ((chrsE e).length + 1) 0 (by omega)
  simpa [tokenize, ppE] using this

/-! ### Parser correctness: helpers -/

theorem map_tok_split {l : List PTok} {A B : List Token}
    (h : l.map PTok.tok = A ++ B) :
    ∃ l1 l2, l = l1 ++ l2 ∧ l1.map PTok.tok = A ∧ l2.map PTok.tok = B := by
  induction A generalizing l with
  | nil => exact ⟨[], l, rfl, rfl, by simpa using h⟩
  | cons t A ih =>
    cases l with
    | nil => simp at h
    | cons p l' =>
      simp only [List.map_cons, List.cons_append, List.cons.injEq] at h
      obtain ⟨l1, l2, rfl, hm1, hm2⟩ := ih h.2
      exact ⟨p :: l1, l2, by simp, by simp [h.1, hm1], hm2⟩

theorem parseExpressionLoop_stop {fuel endPos : ℕ} {acc : ℚ} {accIdx : ℕ}
    {ts : List PTok} (hf : 1 ≤ fuel) (h : restAOk ts) :
    parseExpressionLoop fuel endPos acc accIdx ts = .ok (acc, accIdx, ts) := by
  cases fuel with
  | zero => omega
  | succ g =>
    cases ts with
    | nil => simp [parseExpressionLoop]
    | cons p ts' =>
      obtain ⟨tk, i⟩ := p
      obtain ⟨h1, h2, _, _⟩ := h ⟨tk, i⟩ rfl
      cases tk with
      | plus => exact absurd rfl h1
      | minus => exact absurd rfl h2
      | number v => simp [parseExpressionLoop]
      | star => simp [parseExpressionLoop]
      | slash => simp [parseExpressionLoop]
      | lparen => simp [parseExpressionLoop]
      | rparen => simp [parseExpressionLoop]

theorem parseTermLoop_stop {fuel endPos : ℕ} {acc : ℚ} {accIdx : ℕ}
    {ts : List PTok} (hf : 1 ≤ fuel) (h : restTOk ts) :
    parseTermLoop fuel endPos acc accIdx ts = .ok (acc, accIdx, ts) := by
  cases fuel with
  | zero => omega
  | succ g =>
    cases ts with
    | nil => simp [parseTermLoop]
    | cons p ts' =>
      obtain ⟨tk, i⟩ := p
      obtain ⟨h1, h2⟩ := h ⟨tk, i⟩ rfl
      cases tk with
      | star => exact absurd rfl h1
      | slash => exact absurd rfl h2
      | number v => simp [parseTermLoop]
      | plus => simp [parseTermLoop]
      | minus => simp [parseTermLoop]
      | lparen => simp [parseTermLoop]
      | rparen => simp [parseTermLoop]

theorem toksE_length_pos (e : Expr) : 1 ≤ (toksE e).length := by
  cases e <;> simp [toksE] <;> omega

theorem toksT_length_pos (e : Expr) : 1 ≤ (toksT e).length := by
  cases e <;> simp [toksT] <;> omega

theorem costE_le_toksE (e : Expr) : costE e ≤ (toksE e).length := by
  induction e with
  | num n => simpa [costE] using toksE_length_pos (.num n)
  | neg a _ => simpa [costE] using toksE_length_pos (.neg a)
  | add a b iha _ =>
    have := toksT_length_pos b
    simp only [costE, toksE, List.length_append, List.length_cons]
    omega
  | sub a b iha _ =>
    have := toksT_length_pos b
    simp only [costE, toksE, List.length_append, List.length_cons]
    omega
  | mul a b _ _ => simpa [costE] using toksE_length_pos (.mul a b)
  | div a b _ _ => simpa [costE] using toksE_length_pos (.div a b)

theorem costT_le_toksT (e : Expr) : costT e ≤ (toksT e).length := by
  induction e with
  | num n => simpa [costT] using toksT_length_pos (.num n)
  | neg a _ => simpa [costT] using toksT_length_pos (.neg a)
  | add a b _ _ => simpa [costT] using toksT_length_pos (.add a b)
  | sub a b _ _ => simpa [costT] using toksT_length_pos (.sub a b)
  | mul a b iha _ =>
    have := toksE_length_pos b
    simp only [costT, toksT, List.length_append, List.length_cons]
    omega
  | div a b iha _ =>
    have := toksE_length_pos b
    simp only [costT, toksT, List.length_append, List.length_cons]
    omega

/-- Correctness statement for `parseFactor` on e's factor-level tokens:
the standard value is computed (or the division-by-zero error raised),
consuming exactly the expression's tokens. -/
def FStmt (e : Expr) : Prop :=
  ∀ pts rest fuel endPos, pts.map PTok.tok = toksF e →
    2 * pts.length + 2 ≤ fuel →
    (∀ v, exprVal e = some v →
      ∃ i, parseFactor fuel endPos (pts ++ rest) = .ok (v, i, rest)) ∧
    (exprVal e = none →
      ∃ i j, parseFactor fuel endPos (pts ++ rest) = .error (.divisionByZero i j))

/-- Correctness statement for `parseTerm` on e's term-level tokens, in
loop form: the parse continues as the term loop poised at `rest`. -/
def TStmt (e : Expr) : Prop :=
  ∀ pts rest fuel endPos, pts.map PTok.tok = toksT e →
    2 * pts.length + 3 ≤ fuel →
    (∀ v, exprVal e = some v →
      ∃ i, parseTerm fuel endPos (pts ++ rest) =
        parseTermLoop (fuel - costT e) endPos v i rest) ∧
    (exprVal e = none →
      ∃ i j, parseTerm fuel endPos (pts ++ rest) = .error (.divisionByZero i j))

/-- Correctness statement for `parseExpression` on e's expression-level
tokens, in loop form; `rest` must not start with `*` or `/`, which
would extend the final term. -/
def EStmt (e : Expr) : Prop :=
  ∀ pts rest fuel endPos, pts.map PTok.tok = toksE e →
    2 * pts.length + 4 ≤ fuel → restTOk rest →
    (∀ v, exprVal e = some v →
      ∃ i, parseExpression fuel endPos (pts ++ rest) =
        parseExpressionLoop (fuel - costE e) endPos v i rest) ∧
    (exprVal e = none →
      ∃ i j, parseExpression fuel endPos (pts ++ rest) = .error (.divisionByZero i j))

theorem TStmt_of_FStmt (e : Expr) (hTF : toksT e = toksF e) (hc : costT e = 1)
    (hF : FStmt e) : TStmt e := by
  intro pts rest fuel endPos hmap hfuel
  rw [hTF] at hmap
  cases fuel with
  | zero => omega
  | succ g =>
    have hg := hF pts rest g endPos hmap (by omega)
    constructor
    · intro v hv
      obtain ⟨i, hi⟩ := hg.1 v hv
      refine ⟨i, ?_⟩
      rw [parseTerm, hi, hc]
      simp
    · intro hnone
      obtain ⟨i, j, hij⟩ := hg.2 hnone
      refine ⟨i, j, ?_⟩
      rw [parseTerm, hij]

theorem EStmt_of_TStmt (e : Expr) (hET : toksE e = toksT e) (hc : costE e = 1)
    (hT : TStmt e) : EStmt e := by
  intro pts rest fuel endPos hmap hfuel hrest
  rw [hET] at hmap
  have hlen : pts.length = (toksT e).length := by
    rw [← hmap, List.length_map]
  cases fuel with
  | zero => omega
  | succ g =>
    have hg := hT pts rest g endPos hmap (by omega)
    constructor
    · intro v hv
      obtain ⟨i, hi⟩ := hg.1 v hv
      have hstop : parseTermLoop (g - costT e) endPos v i rest = .ok (v, i, rest) :=
        parseTermLoop_stop (by have := costT_le_toksT e; omega) hrest
      refine ⟨i, ?_⟩
      rw [parseExpression, hi, hstop, hc]
      simp
    · intro hnone
      obtain ⟨i, j, hij⟩ := hg.2 hnone
      refine ⟨i, j, ?_⟩
      rw [parseExpression, hij]

theorem FStmt_paren (e : Expr)
    (hsh : toksF e = .lparen :: toksE e ++ [.rparen]) (hE : EStmt e) : FStmt e := by
  intro pts rest fuel endPos hmap hfuel
  rw [hsh] at hmap
  cases pts with
  | nil => simp at hmap
  | cons pl pts₁ =>
    simp only [List.map_cons, List.cons_append, List.cons.injEq] at hmap
    obtain ⟨hpl, hmap₁⟩ := hmap
    obtain ⟨p1, p2, rfl, hm1, hm2⟩ := map_tok_split hmap₁
    cases p2 with
    | nil => simp at hm2
    | cons pr p2' =>
      have hp2' : p2' = [] := by
        cases p2' with
        | nil => rfl
        | cons _ _ => simp at hm2
      subst hp2'
      obtain ⟨tk, i0⟩ := pl
      obtain ⟨prtk, j0⟩ := pr
      have hpl' : tk = Token.lparen := by simpa using hpl
      subst hpl'
      have hm2' : prtk = Token.rparen := by simpa using hm2
      subst hm2'
      have hlen1 : p1.length = (toksE e).length := by
        rw [← hm1, List.length_map]
      simp only [List.length_cons, List.length_append, List.length_singleton] at hfuel
      cases fuel with
      | zero => omega
      | succ g =>
        have hrT : restTOk (⟨Token.rparen, j0⟩ :: rest) := by
          intro p hp
          simp at hp
          subst hp
          exact ⟨by simp, by simp⟩
        have hrA : restAOk (⟨Token.rparen, j0⟩ :: rest) := by
          intro p hp
          simp at hp
          subst hp
          exact ⟨by simp, by simp, by simp, by simp⟩
        have hg := hE p1 (⟨Token.rparen, j0⟩ :: rest) g endPos hm1 (by omega) hrT
        constructor
        · intro v hv
          obtain ⟨i, hi⟩ := hg.1 v hv
          have hstop : parseExpressionLoop (g - costE e) endPos v i
              (⟨Token.rparen, j0⟩ :: rest) = .ok (v, i, ⟨Token.rparen, j0⟩ :: rest) :=
            parseExpressionLoop_stop
              (by have := costE_le_toksE e; omega) hrA
          refine ⟨i0, ?_⟩
          simp only [List.cons_append, List.append_assoc, List.singleton_append,
            List.nil_append]
          simp only [parseFactor]
          rw [hi, hstop]
        · intro hnone
          obtain ⟨i, j, hij⟩ := hg.2 hnone
          refine ⟨i, j, ?_⟩
          simp only [List.cons_append, List.append_assoc, List.singleton_append,
            List.nil_append]
          simp only [parseFactor]
          rw [hij]

/-- Parser correctness on printed token streams, at all three grammar
levels at once, by induction over the expression. -/
theorem parseStmt (e : Expr) : FStmt e ∧ TStmt e ∧ EStmt e := by
  induction e with
  | num n =>
    have hF : FStmt (.num n) := by
      intro pts rest fuel endPos hmap hfuel
      have h0 : toksF (.num n) = [Token.number (n : ℚ)] := by simp [toksF]
      rw [h0] at hmap
      cases pts with
      | nil => simp at hmap
      | cons p pts' =>
        simp only [List.map_cons, List.cons.injEq] at hmap
        have hnil : pts' = [] := by
          cases pts' with
          | nil => rfl
          | cons _ _ => simp at hmap
        subst hnil
        obtain ⟨tk, i⟩ := p
        have htk : tk = Token.number (n : ℚ) := by simpa using hmap.1
        subst htk
        cases fuel with
        | zero => omega
        | succ g =>
          constructor
          · intro v hv
            have hv' : (n : ℚ) = v := by simpa [exprVal] using hv
            subst hv'
            exact ⟨i, by simp [parseFactor]⟩
          · intro hnone
            simp [exprVal] at hnone
    have hT := TStmt_of_FStmt _ (by simp [toksT, toksF]) (by simp [costT]) hF
    exact ⟨hF, hT, EStmt_of_TStmt _ (by simp [toksE, toksT]) (by simp [costE]) hT⟩
  | neg a ih =>
    obtain ⟨ihF, _, _⟩ := ih
    have hF : FStmt (.neg a) := by
      intro pts rest fuel endPos hmap hfuel
      have h0 : toksF (.neg a) = Token.minus :: toksF a := by simp [toksF]
      rw [h0] at hmap
      cases pts with
      | nil => simp at hmap
      | cons pm pts' =>
        simp only [List.map_cons, List.cons.injEq] at hmap
        obtain ⟨tk, i⟩ := pm
        have htk : tk = Token.minus := by simpa using hmap.1
        subst htk
        have hm' : pts'.map PTok.tok = toksF a := hmap.2
        cases fuel with
        | zero => omega
        | succ g =>
          have hsub := ihF pts' rest g endPos hm' (by simp at hfuel; omega)
          constructor
          · intro v hv
            rcases hA : exprVal a with _ | x
            · simp [exprVal, hA] at hv
            · have hv' : -x = v := by simpa [exprVal, hA] using hv
              obtain ⟨i2, hi2⟩ := hsub.1 x hA
              refine ⟨i, ?_⟩
              simp only [List.cons_append, parseFactor]
              rw [hi2, ← hv']
              rfl
          · intro hnone
            rcases hA : exprVal a with _ | x
            · obtain ⟨i2, j2, hij⟩ := hsub.2 hA
              refine ⟨i2, j2, ?_⟩
              simp only [List.cons_append, parseFactor]
              rw [hij]
              rfl
            · simp [exprVal, hA] at hnone
    have hT := TStmt_of_FStmt _ (by simp [toksT, toksF]) (by simp [costT]) hF
    exact ⟨hF, hT, EStmt_of_TStmt _ (by simp [toksE, toksT]) (by simp [costE]) hT⟩
  | add a b iha ihb =>
    obtain ⟨_, _, ihaE⟩ := iha
    obtain ⟨_, ihbT, _⟩ := ihb
    have hE : EStmt (.add a b) := by
      intro pts rest fuel endPos hmap hfuel hrest
      have h0 : toksE (.add a b) = toksE a ++ Token.plus :: toksT b := by simp [toksE]
      rw [h0] at hmap
      obtain ⟨p1, p2, rfl, hm1, hm2⟩ := map_tok_split hmap
      cases p2 with
      | nil => simp at hm2
      | cons pp p2' =>
        simp only [List.map_cons, List.cons.injEq] at hm2
        obtain ⟨tkp, j⟩ := pp
        have htkp : tkp = Token.plus := by simpa using hm2.1
        subst htkp
        have hm2' : p2'.map PTok.tok = toksT b := hm2.2
        have hlen1 : p1.length = (toksE a).length := by rw [← hm1, List.length_map]
        have hlen2 : p2'.length = (toksT b).length := by rw [← hm2', List.length_map]
        rw [List.length_append, List.length_cons] at hfuel
        have hcA : costE a ≤ p1.length := hlen1 ▸ costE_le_toksE a
        have hcB : costT b ≤ p2'.length := hlen2 ▸ costT_le_toksT b
        have hshape : (p1 ++ ⟨Token.plus, j⟩ :: p2') ++ rest =
            p1 ++ (⟨Token.plus, j⟩ :: (p2' ++ rest)) := by simp
        have hrT' : restTOk (⟨Token.plus, j⟩ :: (p2' ++ rest)) := by
          intro p hp
          simp at hp
          subst hp
          exact ⟨by simp, by simp⟩
        have hgA := ihaE p1 (⟨Token.plus, j⟩ :: (p2' ++ rest)) fuel endPos hm1
          (by omega) hrT'
        constructor
        · intro v hv
          rcases hA : exprVal a with _ | x
          · simp [exprVal, hA] at hv
          rcases hB : exprVal b with _ | y
          · simp [exprVal, hA, hB] at hv
          have hv' : x + y = v := by simpa [exprVal, hA, hB] using hv
          obtain ⟨iA, hiA⟩ := hgA.1 x hA
          obtain ⟨g, hg⟩ : ∃ g, fuel - costE a = g + 1 :=
            ⟨fuel - costE a - 1, by omega⟩
          have hgB := ihbT p2' rest g endPos hm2' (by omega)
          obtain ⟨iB, hiB⟩ := hgB.1 y hB
          have hstopB : parseTermLoop (g - costT b) endPos y iB rest =
              .ok (y, iB, rest) :=
            parseTermLoop_stop (by omega) hrest
          refine ⟨iA, ?_⟩
          rw [hshape, hiA, hg]
          simp only [parseExpressionLoop]
          rw [hiB, hstopB]
          have hc : fuel - costE (.add a b) = g := by
            simp only [costE]
            omega
          rw [hc]
          simp [hv']
        · intro hnone
          rcases hA : exprVal a with _ | x
          · obtain ⟨i2, j2, hij⟩ := hgA.2 hA
            exact ⟨i2, j2, by rw [hshape]; exact hij⟩
          rcases hB : exprVal b with _ | y
          · obtain ⟨iA, hiA⟩ := hgA.1 x hA
            obtain ⟨g, hg⟩ : ∃ g, fuel - costE a = g + 1 :=
              ⟨fuel - costE a - 1, by omega⟩
            have hgB := ihbT p2' rest g endPos hm2' (by omega)
            obtain ⟨i2, j2, hij⟩ := hgB.2 hB
            refine ⟨i2, j2, ?_⟩
            rw [hshape, hiA, hg]
            simp only [parseExpressionLoop]
            rw [hij]
          · simp [exprVal, hA, hB] at hnone
    have hF := FStmt_paren _ (by simp [toksF, toksE]) hE
    exact ⟨hF, TStmt_of_FStmt _ (by simp [toksT, toksF]) (by simp [costT]) hF, hE⟩
  | sub a b iha ihb =>
    obtain ⟨_, _, ihaE⟩ := iha
    obtain ⟨_, ihbT, _⟩ := ihb
    have hE : EStmt (.sub a b) := by
      intro pts rest fuel endPos hmap hfuel hrest
      have h0 : toksE (.sub a b) = toksE a ++ Token.minus :: toksT b := by simp [toksE]
      rw [h0] at hmap
      obtain ⟨p1, p2, rfl, hm1, hm2⟩ := map_tok_split hmap
      cases p2 with
      | nil => simp at hm2
      | cons pp p2' =>
        simp only [List.map_cons, List.cons.injEq] at hm2
        obtain ⟨tkp, j⟩ := pp
        have htkp : tkp = Token.minus := by simpa using hm2.1
        subst htkp
        have hm2' : p2'.map PTok.tok = toksT b := hm2.2
        have hlen1 : p1.length = (toksE a).length := by rw [← hm1, List.length_map]
        have hlen2 : p2'.length = (toksT b).length := by rw [← hm2', List.length_map]
        rw [List.length_append, List.length_cons] at hfuel
        have hcA : costE a ≤ p1.length := hlen1 ▸ costE_le_toksE a
        have hcB : costT b ≤ p2'.length := hlen2 ▸ costT_le_toksT b
        have hshape : (p1 ++ ⟨Token.minus, j⟩ :: p2') ++ rest =
            p1 ++ (⟨Token.minus, j⟩ :: (p2' ++ rest)) := by simp
        have hrT' : restTOk (⟨Token.minus, j⟩ :: (p2' ++ rest)) := by
          intro p hp
          simp at hp
          subst hp
          exact ⟨by simp, by simp⟩
        have hgA := ihaE p1 (⟨Token.minus, j⟩ :: (p2' ++ rest)) fuel endPos hm1
          (by omega) hrT'
        constructor
        · intro v hv
          rcases hA : exprVal a with _ | x
          · simp [exprVal, hA] at hv
          rcases hB : exprVal b with _ | y
          · simp [exprVal, hA, hB] at hv
          have hv' : x - y = v := by simpa [exprVal, hA, hB] using hv
          obtain ⟨iA, hiA⟩ := hgA.1 x hA
          obtain ⟨g, hg⟩ : ∃ g, fuel - costE a = g + 1 :=
            ⟨fuel - costE a - 1, by omega⟩
          have hgB := ihbT p2' rest g endPos hm2' (by omega)
          obtain ⟨iB, hiB⟩ := hgB.1 y hB
          have hstopB : parseTermLoop (g - costT b) endPos y iB rest =
              .ok (y, iB, rest) :=
            parseTermLoop_stop (by omega) hrest
          refine ⟨iA, ?_⟩
          rw [hshape, hiA, hg]
          simp only [parseExpressionLoop]
          rw [hiB, hstopB]
          have hc : fuel - costE (.sub a b) = g := by
            simp only [costE]
            omega
          rw [hc]
          simp [hv']
        · intro hnone
          rcases hA : exprVal a with _ | x
          · obtain ⟨i2, j2, hij⟩ := hgA.2 hA
            exact ⟨i2, j2, by rw [hshape]; exact hij⟩
          rcases hB : exprVal b with _ | y
          · obtain ⟨iA, hiA⟩ := hgA.1 x hA
            obtain ⟨g, hg⟩ : ∃ g, fuel - costE a = g + 1 :=
              ⟨fuel - costE a - 1, by omega⟩
            have hgB := ihbT p2' rest g endPos hm2' (by omega)
            obtain ⟨i2, j2, hij⟩ := hgB.2 hB
            refine ⟨i2, j2, ?_⟩
            rw [hshape, hiA, hg]
            simp only [parseExpressionLoop]
            rw [hij]
          · simp [exprVal, hA, hB] at hnone
    have hF := FStmt_paren _ (by simp [toksF, toksE]) hE
    exact ⟨hF, TStmt_of_FStmt _ (by simp [toksT, toksF]) (by simp [costT]) hF, hE⟩
  | mul a b iha ihb =>
    obtain ⟨_, ihaT, _⟩ := iha
    obtain ⟨ihbF, _, _⟩ := ihb
    have hT : TStmt (.mul a b) := by
      intro pts rest fuel endPos hmap hfuel
      have h0 : toksT (.mul a b) = toksT a ++ Token.star :: toksF b := by simp [toksT]
      rw [h0] at hmap
      obtain ⟨p1, p2, rfl, hm1, hm2⟩ := map_tok_split hmap
      cases p2 with
      | nil => simp at hm2
      | cons pp p2' =>
        simp only [List.map_cons, List.cons.injEq] at hm2
        obtain ⟨tkp, j⟩ := pp
        have htkp : tkp = Token.star := by simpa using hm2.1
        subst htkp
        have hm2' : p2'.map PTok.tok = toksF b := hm2.2
        have hlen1 : p1.length = (toksT a).length := by rw [← hm1, List.length_map]
        have hlen2 : p2'.length = (toksF b).length := by rw [← hm2', List.length_map]
        rw [List.length_append, List.length_cons] at hfuel
        have hcA : costT a ≤ p1.length := hlen1 ▸ costT_le_toksT a
        have hshape : (p1 ++ ⟨Token.star, j⟩ :: p2') ++ rest =
            p1 ++ (⟨Token.star, j⟩ :: (p2' ++ rest)) := by simp
        have hgA := ihaT p1 (⟨Token.star, j⟩ :: (p2' ++ rest)) fuel endPos hm1
          (by omega)
        constructor
        · intro v hv
          rcases hA : exprVal a with _ | x
          · simp [exprVal, hA] at hv
          rcases hB : exprVal b with _ | y
          · simp [exprVal, hA, hB] at hv
          have hv' : x * y = v := by simpa [exprVal, hA, hB] using hv
          obtain ⟨iA, hiA⟩ := hgA.1 x hA
          obtain ⟨g, hg⟩ : ∃ g, fuel - costT a = g + 1 :=
            ⟨fuel - costT a - 1, by omega⟩
          have hgB := ihbF p2' rest g endPos hm2' (by omega)
          obtain ⟨iB, hiB⟩ := hgB.1 y hB
          refine ⟨iA, ?_⟩
          rw [hshape, hiA, hg]
          simp only [parseTermLoop]
          rw [hiB]
          have hc : fuel - costT (.mul a b) = g := by
            simp only [costT]
            omega
          rw [hc]
          simp [hv']
        · intro hnone
          rcases hA : exprVal a with _ | x
          · obtain ⟨i2, j2, hij⟩ := hgA.2 hA
            exact ⟨i2, j2, by rw [hshape]; exact hij⟩
          rcases hB : exprVal b with _ | y
          · obtain ⟨iA, hiA⟩ := hgA.1 x hA
            obtain ⟨g, hg⟩ : ∃ g, fuel - costT a = g + 1 :=
              ⟨fuel - costT a - 1, by omega⟩
            have hgB := ihbF p2' rest g endPos hm2' (by omega)
            obtain ⟨i2, j2, hij⟩ := hgB.2 hB
            refine ⟨i2, j2, ?_⟩
            rw [hshape, hiA, hg]
            simp only [parseTermLoop]
            rw [hij]
          · simp [exprVal, hA, hB] at hnone
    have hE := EStmt_of_TStmt _ (by simp [toksE, toksT]) (by simp [costE]) hT
    exact ⟨FStmt_paren _ (by simp [toksF, toksE]) hE, hT, hE⟩
  | div a b iha ihb =>
    obtain ⟨_, ihaT, _⟩ := iha
    obtain ⟨ihbF, _, _⟩ := ihb
    have hT : TStmt (.div a b) := by
      intro pts rest fuel endPos hmap hfuel
      have h0 : toksT (.div a b) = toksT a ++ Token.slash :: toksF b := by simp [toksT]
      rw [h0] at hmap
      obtain ⟨p1, p2, rfl, hm1, hm2⟩ := map_tok_split hmap
      cases p2 with
      | nil => simp at hm2
      | cons pp p2' =>
        simp only [List.map_cons, List.cons.injEq] at hm2
        obtain ⟨tkp, j⟩ := pp
        have htkp : tkp = Token.slash := by simpa using hm2.1
        subst htkp
        have hm2' : p2'.map PTok.tok = toksF b := hm2.2
        have hlen1 : p1.length = (toksT a).length := by rw [← hm1, List.length_map]
        have hlen2 : p2'.length = (toksF b).length := by rw [← hm2', List.length_map]
        rw [List.length_append, List.length_cons] at hfuel
        have hcA : costT a ≤ p1.length := hlen1 ▸ costT_le_toksT a
        have hshape : (p1 ++ ⟨Token.slash, j⟩ :: p2') ++ rest =
            p1 ++ (⟨Token.slash, j⟩ :: (p2' ++ rest)) := by simp
        have hgA := ihaT p1 (⟨Token.slash, j⟩ :: (p2' ++ rest)) fuel endPos hm1
          (by omega)
        constructor
        · intro v hv
          rcases hA : exprVal a with _ | x
          · simp [exprVal, hA] at hv
          rcases hB : exprVal b with _ | y
          · simp [exprVal, hA, hB] at hv
          by_cases hy : y = 0
          · simp [exprVal, hA, hB, hy] at hv
          have hv' : x / y = v := by
            have := hv
            simp [exprVal, hA, hB, hy] at this
            exact this
          obtain ⟨iA, hiA⟩ := hgA.1 x hA
          obtain ⟨g, hg⟩ : ∃ g, fuel - costT a = g + 1 :=
            ⟨fuel - costT a - 1, by omega⟩
          have hgB := ihbF p2' rest g endPos hm2' (by omega)
          obtain ⟨iB, hiB⟩ := hgB.1 y hB
          refine ⟨iA, ?_⟩
          rw [hshape, hiA, hg]
          simp only [parseTermLoop]
          rw [hiB]
          have hc : fuel - costT (.div a b) = g := by
            simp only [costT]
            omega
          rw [hc]
          simp [hy, hv']
        · intro hnone
          rcases hA : exprVal a with _ | x
          · obtain ⟨i2, j2, hij⟩ := hgA.2 hA
            exact ⟨i2, j2, by rw [hshape]; exact hij⟩
          rcases hB : exprVal b with _ | y
          · obtain ⟨iA, hiA⟩ := hgA.1 x hA
            obtain ⟨g, hg⟩ : ∃ g, fuel - costT a = g + 1 :=
              ⟨fuel - costT a - 1, by omega⟩
            have hgB := ihbF p2' rest g endPos hm2' (by omega)
            obtain ⟨i2, j2, hij⟩ := hgB.2 hB
            refine ⟨i2, j2, ?_⟩
            rw [hshape, hiA, hg]
            simp only [parseTermLoop]
            rw [hij]
          by_cases hy : y = 0
          · subst hy
            obtain ⟨iA, hiA⟩ := hgA.1 x hA
            obtain ⟨g, hg⟩ : ∃ g, fuel - costT a = g + 1 :=
              ⟨fuel - costT a - 1, by omega⟩
            have hgB := ihbF p2' rest g endPos hm2' (by omega)
            obtain ⟨iB, hiB⟩ := hgB.1 0 hB
            refine ⟨iA, iB, ?_⟩
            rw [hshape, hiA, hg]
            simp only [parseTermLoop]
            rw [hiB]
            simp
          · simp [exprVal, hA, hB, hy] at hnone
    have hE := EStmt_of_TStmt _ (by simp [toksE, toksT]) (by simp [costE]) hT
    exact ⟨FStmt_paren _ (by simp [toksF, toksE]) hE, hT, hE⟩

theorem restTOk_nil : restTOk [] := by
  intro p hp
  simp at hp

theorem restAOk_nil : restAOk [] := by
  intro p hp
  simp at hp

/-- C1: for every valid expression over integer literals and the four
operators (with parentheses) in which no division by zero occurs,
`evaluate` returns the expression's value under standard arithmetic with
`*`, `/` binding tighter than `+`, `-` and equal-precedence operators
grouping left to right. -/
theorem evaluate_correct_on_standard_arithmetic (e : Expr) (v : ℚ)
    (hv : exprVal e = some v) : evaluate (ppE e) = .ok v := by
  obtain ⟨pts, htok, hmap⟩ := tokenize_ppE e
  have hlen : pts.length = (toksE e).length := by
    rw [← hmap, List.length_map]
  have hpos := toksE_length_pos e
  have hcost := costE_le_toksE e
  have hE := (parseStmt e).2.2 pts [] (4 * pts.length + 4) (ppE e).length hmap
    (by omega) restTOk_nil
  obtain ⟨i, hi⟩ := hE.1 v hv
  rw [List.append_nil] at hi
  have hstop : parseExpressionLoop (4 * pts.length + 4 - costE e) (ppE e).length v i [] =
      .ok (v, i, []) :=
    parseExpressionLoop_stop (by omega) restAOk_nil
  cases pts with
  | nil => simp at hlen; omega
  | cons p pts' =>
    simp only [evaluate, htok]
    rw [hi, hstop]

theorem evaluate_correct_witness :
    evaluate "2+3*4" = .ok 14 ∧ evaluate "10-2-3" = .ok 5 := by
  constructor
  · have h := evaluate_correct_on_standard_arithmetic
      (.add (.num 2) (.mul (.num 3) (.num 4))) 14 (by norm_num [exprVal])
    have hs : ppE (.add (.num 2) (.mul (.num 3) (.num 4))) = "2+3*4" := by decide
    rw [hs] at h
    exact h
  · have h := evaluate_correct_on_standard_arithmetic
      (.sub (.sub (.num 10) (.num 2)) (.num 3)) 5 (by norm_num [exprVal])
    have hs : ppE (.sub (.sub (.num 10) (.num 2)) (.num 3)) = "10-2-3" := by decide
    rw [hs] at h
    exact h

/-- C2: for every expression in which a division's divisor evaluates to
exactly zero, `evaluate` fails with `divisionByZero` (identifying
dividend and divisor positions) and never succeeds with any value. -/
theorem divisionByZero_detected (e : Expr) (h : exprVal e = none) :
    ∃ i j, evaluate (ppE e) = .error (.divisionByZero i j) := by
  obtain ⟨pts, htok, hmap⟩ := tokenize_ppE e
  have hlen : pts.length = (toksE e).length := by
    rw [← hmap, List.length_map]
  have hpos := toksE_length_pos e
  have hE := (parseStmt e).2.2 pts [] (4 * pts.length + 4) (ppE e).length hmap
    (by omega) restTOk_nil
  obtain ⟨i, j, hij⟩ := hE.2 h
  rw [List.append_nil] at hij
  refine ⟨i, j, ?_⟩
  cases pts with
  | nil => simp at hlen; omega
  | cons p pts' =>
    simp only [evaluate, htok]
    rw [hij]

theorem divisionByZero_witness :
    (∃ i j, evaluate "5/0" = .error (.divisionByZero i j)) ∧
      evaluate "5/0" = .error (.divisionByZero 0 2) := by
  constructor
  · have h := divisionByZero_detected (.div (.num 5) (.num 0)) (by norm_num [exprVal])
    have hs : ppE (.div (.num 5) (.num 0)) = "5/0" := by decide
    rw [hs] at h
    exact h
  · simp +decide [evaluate, tokenize, tokenizeAux, scanNumber, numValue, digitsVal,
      charToRat, parseExpression, parseTerm, parseFactor, parseTermLoop,
      parseExpressionLoop, Except.map]

/-- Parsing an open parenthesis followed by a complete expression and
no matching close fails with `unbalancedParentheses` at end of input. -/
theorem parseExpression_open_paren (e : Expr) (v : ℚ) (hv : exprVal e = some v)
    (p1 : List PTok) (i0 : ℕ) (hm : p1.map PTok.tok = toksE e)
    (fuel endPos : ℕ) (hf : 2 * p1.length + 7 ≤ fuel) :
    parseExpression fuel endPos (⟨Token.lparen, i0⟩ :: p1) =
      .error (.unbalancedParentheses endPos) := by
  obtain ⟨g0, rfl⟩ : ∃ g0, fuel = g0 + 1 := ⟨fuel - 1, by omega⟩
  obtain ⟨g1, rfl⟩ : ∃ g1, g0 = g1 + 1 := ⟨g0 - 1, by omega⟩
  obtain ⟨g2, rfl⟩ : ∃ g2, g1 = g2 + 1 := ⟨g1 - 1, by omega⟩
  have hlen : p1.length = (toksE e).length := by
    rw [← hm, List.length_map]
  have hcost := costE_le_toksE e
  have hE := (parseStmt e).2.2 p1 [] g2 endPos hm (by omega) restTOk_nil
  obtain ⟨i, hi⟩ := hE.1 v hv
  rw [List.append_nil] at hi
  have hstop : parseExpressionLoop (g2 - costE e) endPos v i [] = .ok (v, i, []) :=
    parseExpressionLoop_stop (by omega) restAOk_nil
  simp only [parseExpression, parseTerm, parseFactor]
  rw [hi, hstop]

/-- C4: unbalanced parentheses are rejected — an open parenthesis with
no matching close fails with `unbalancedParentheses` naming end of
input, and a close parenthesis with no matching open fails with
`unbalancedParentheses` naming the position of the offending token. -/
theorem unbalancedParentheses_rejected :
    (∀ (e : Expr) (v : ℚ), exprVal e = some v →
        evaluate (String.mk ('(' :: chrsE e)) =
          .error (.unbalancedParentheses (String.mk ('(' :: chrsE e)).length)) ∧
      ∀ (e : Expr) (v : ℚ), exprVal e = some v →
        ∃ i, evaluate (String.mk (chrsE e ++ [')'])) =
          .error (.unbalancedParentheses i) := by
  constructor
  · intro e v hv
    have htokok : TokOk ('(' :: chrsE e) (Token.lparen :: toksE e) := by
      have h := tokOk_cons_lparen ((tokOk_chrs e).1 [] [] boundaryOk_nil tokOk_nil)
      simpa using h
    obtain ⟨pts, htok, hmap⟩ := htokok (('(' :: chrsE e).length + 1) 0 (by omega)
    cases pts with
    | nil => simp at hmap
    | cons pl p1 =>
      simp only [List.map_cons, List.cons.injEq] at hmap
      obtain ⟨tk0, i0⟩ := pl
      have htk0 : tk0 = Token.lparen := by simpa using hmap.1
      subst htk0
      have hm1 : p1.map PTok.tok = toksE e := hmap.2
      have htok2 : tokenize (String.mk ('(' :: chrsE e)) =
          .ok (⟨Token.lparen, i0⟩ :: p1) := htok
      have hperr := parseExpression_open_paren e v hv p1 i0 hm1
        (4 * (⟨Token.lparen, i0⟩ :: p1 : List PTok).length + 4)
        (String.mk ('(' :: chrsE e)).length
        (by simp only [List.length_cons]; omega)
      simp only [evaluate, htok2]
      rw [hperr]
  · intro e v hv
    have hrp : TokOk [')'] [Token.rparen] := by
      simpa using tokOk_cons_rparen tokOk_nil
    have htokok : TokOk (chrsE e ++ [')']) (toksE e ++ [Token.rparen]) :=
      (tokOk_chrs e).1 [')'] [Token.rparen]
        (boundaryOk_cons (by decide) (by decide) _) hrp
    obtain ⟨pts, htok, hmap⟩ := htokok ((chrsE e ++ [')']).length + 1) 0 (by omega)
    obtain ⟨p1, p2, rfl, hm1, hm2⟩ := map_tok_split hmap
    cases p2 with
    | nil => simp at hm2
    | cons pr p2' =>
      have hp2' : p2' = [] := by
        cases p2' with
        | nil => rfl
        | cons _ _ => simp at hm2
      subst hp2'
      obtain ⟨prtk, j0⟩ := pr
      have hprtk : prtk = Token.rparen := by simpa using hm2
      subst hprtk
      have hlen : p1.length = (toksE e).length := by
        rw [← hm1, List.length_map]
      have hcost := costE_le_toksE e
      have hrT : restTOk [(⟨Token.rparen, j0⟩ : PTok)] := by
        intro p hp
        simp at hp
        subst hp
        exact ⟨by simp, by simp⟩
      have hrA : restAOk [(⟨Token.rparen, j0⟩ : PTok)] := by
        intro p hp
        simp at hp
        subst hp
        exact ⟨by simp, by simp, by simp, by simp⟩
      have hE := (parseStmt e).2.2 p1 [⟨Token.rparen, j0⟩]
        (4 * (p1 ++ [(⟨Token.rparen, j0⟩ : PTok)]).length + 4)
        (String.mk (chrsE e ++ [')'])).length hm1
        (by simp only [List.length_append, List.length_cons, List.length_nil]; omega) hrT
      obtain ⟨i, hi⟩ := hE.1 v hv
      have hstop : parseExpressionLoop
          (4 * (p1 ++ [(⟨Token.rparen, j0⟩ : PTok)]).length + 4 - costE e)
          (String.mk (chrsE e ++ [')'])).length v i [⟨Token.rparen, j0⟩] =
          .ok (v, i, [⟨Token.rparen, j0⟩]) :=
        parseExpressionLoop_stop
          (by simp only [List.length_append, List.length_cons, List.length_nil]; omega) hrA
      have htok2 : tokenize (String.mk (chrsE e ++ [')'])) =
          .ok (p1 ++ [⟨Token.rparen, j0⟩]) := htok
      obtain ⟨q, qs, hq⟩ : ∃ q qs,
          p1 ++ [(⟨Token.rparen, j0⟩ : PTok)] = q :: qs := by
        cases p1 with
        | nil => exact ⟨_, _, rfl⟩
        | cons x xs => exact ⟨x, xs ++ [⟨Token.rparen, j0⟩], by simp⟩
      rw [hq] at htok2 hi hstop
      refine ⟨j0, ?_⟩
      simp only [evaluate, htok2]
      rw [hi, hstop]

theorem unbalancedParentheses_witness :
    evaluate "(2" = .error (.unbalancedParentheses 2) ∧
      (∃ i, evaluate "2)" = .error (.unbalancedParentheses i)) ∧
      evaluate "2+(3*4" = .error (.unbalancedParentheses 6) := by
  refine ⟨?_, ?_, ?_⟩
  · have h := unbalancedParentheses_rejected.1 (.num 2) 2 (by norm_num [exprVal])
    have hs : String.mk ('(' :: chrsE (.num 2)) = "(2" := by decide
    rw [hs] at h
    exact h
  · obtain ⟨i, hi⟩ := unbalancedParentheses_rejected.2 (.num 2) 2 (by norm_num [exprVal])
    have hs : String.mk (chrsE (.num 2) ++ [')']) = "2)" := by decide
    rw [hs] at hi
    exact ⟨i, hi⟩
  · simp +decide [evaluate, tokenize, tokenizeAux, scanNumber, numValue, digitsVal,
      charToRat, parseExpression, parseTerm, parseFactor, parseTermLoop,
      parseExpressionLoop, Except.map]

/-- An input containing a character outside the accepted alphabet makes
the Tokenizer fail with `invalidCharacter`, reporting a character that
really stands at the reported index (the offending character, or an
ill-placed decimal point found first). -/
theorem tokenizeAux_invalid (fuel : ℕ) :
    ∀ cs pos, cs.length < fuel → (∃ c ∈ cs, allowedChar c = false) →
      ∃ c k, tokenizeAux fuel cs pos = .error (.invalidCharacter c (pos + k)) ∧
        cs.get? k = some c ∧ (allowedChar c = false ∨ c = '.') := by
  induction fuel with
  | zero => intro cs pos h _; omega
  | succ m ih =>
    intro cs pos hlen hbad
    obtain ⟨cb, hcbmem, hcb⟩ := hbad
    cases cs with
    | nil => simp at hcbmem
    | cons c cs' =>
      have hop : ∀ f : List PTok → List PTok,
          tokenizeAux (m + 1) (c :: cs') pos = (tokenizeAux m cs' (pos + 1)).map f →
          cb ∈ cs' →
          ∃ c2 k, tokenizeAux (m + 1) (c :: cs') pos =
              .error (.invalidCharacter c2 (pos + k)) ∧
            (c :: cs').get? k = some c2 ∧ (allowedChar c2 = false ∨ c2 = '.') := by
        intro f heq hmem
        obtain ⟨c2, k, herr, hget, hprop⟩ :=
          ih cs' (pos + 1) (by simp at hlen; omega) ⟨cb, hmem, hcb⟩
        have hsh : pos + 1 + k = pos + (k + 1) := by omega
        rw [hsh] at herr
        refine ⟨c2, k + 1, ?_, by simpa using hget, hprop⟩
        rw [heq, herr]
        rfl
      by_cases hw : c.isWhitespace = true
      · have heq : tokenizeAux (m + 1) (c :: cs') pos = tokenizeAux m cs' (pos + 1) := by
          rw [tokenizeAux, if_pos hw]
        have hmem : cb ∈ cs' := by
          rcases List.mem_cons.mp hcbmem with rfl | h
          · simp [allowedChar, hw] at hcb
          · exact h
        obtain ⟨c2, k, herr, hget, hprop⟩ :=
          ih cs' (pos + 1) (by simp at hlen; omega) ⟨cb, hmem, hcb⟩
        have hsh : pos + 1 + k = pos + (k + 1) := by omega
        rw [hsh] at herr
        exact ⟨c2, k + 1, by rw [heq, herr], by simpa using hget, hprop⟩
      · by_cases hplus : c = '+'
        · refine hop _ (by rw [tokenizeAux, if_neg hw, if_pos hplus]) ?_
          rcases List.mem_cons.mp hcbmem with rfl | h
          · rw [hplus] at hcb; exact absurd hcb (by decide)
          · exact h
        by_cases hminus : c = '-'
        · refine hop _ (by rw [tokenizeAux, if_neg hw, if_neg hplus, if_pos hminus]) ?_
          rcases List.mem_cons.mp hcbmem with rfl | h
          · rw [hminus] at hcb; exact absurd hcb (by decide)
          · exact h
        by_cases hstar : c = '*'
        · refine hop _
            (by rw [tokenizeAux, if_neg hw, if_neg hplus, if_neg hminus, if_pos hstar]) ?_
          rcases List.mem_cons.mp hcbmem with rfl | h
          · rw [hstar] at hcb; exact absurd hcb (by decide)
          · exact h
        by_cases hslash : c = '/'
        · refine hop _
            (by rw [tokenizeAux, if_neg hw, if_neg hplus, if_neg hminus, if_neg hstar,
              if_pos hslash]) ?_
          rcases List.mem_cons.mp hcbmem with rfl | h
          · rw [hslash] at hcb; exact absurd hcb (by decide)
          · exact h
        by_cases hlp : c = '('
        · refine hop _
            (by rw [tokenizeAux, if_neg hw, if_neg hplus, if_neg hminus, if_neg hstar,
              if_neg hslash, if_pos hlp]) ?_
          rcases List.mem_cons.mp hcbmem with rfl | h
          · rw [hlp] at hcb; exact absurd hcb (by decide)
          · exact h
        by_cases hrp : c = ')'
        · refine hop _
            (by rw [tokenizeAux, if_neg hw, if_neg hplus, if_neg hminus, if_neg hstar,
              if_neg hslash, if_neg hlp, if_pos hrp]) ?_
          rcases List.mem_cons.mp hcbmem with rfl | h
          · rw [hrp] at hcb; exact absurd hcb (by decide)
          · exact h
        by_cases hd : c.isDigit = true
        · have hstep : scanNumber (c :: cs') pos false [] =
              scanNumber cs' (pos + 1) false [c] := by
            rw [scanNumber, if_pos hd]
            simp
          have heq : tokenizeAux (m + 1) (c :: cs') pos =
              (match scanNumber cs' (pos + 1) false [c] with
                | .ok (ds, rest, pos') =>
                    (tokenizeAux m rest pos').map (⟨.number (numValue ds), pos⟩ :: ·)
                | .error e => .error e) := by
            rw [tokenizeAux, if_neg hw, if_neg hplus, if_neg hminus, if_neg hstar,
              if_neg hslash, if_neg hlp, if_neg hrp, if_pos hd, hstep]
          cases hscan : scanNumber cs' (pos + 1) false [c] with
          | ok r =>
            obtain ⟨ds, rest', pos'⟩ := r
            obtain ⟨pre, hpre, hall, hpos'⟩ :=
              scanNumber_consumed cs' (pos + 1) false [c] ds rest' pos' hscan
            have hmem : cb ∈ rest' := by
              rcases List.mem_cons.mp hcbmem with rfl | h
              · simp [allowedChar, hd] at hcb
              · rw [hpre] at h
                rcases List.mem_append.mp h with h | h
                · rcases hall cb h with h2 | h2
                  · simp [allowedChar, h2] at hcb
                  · rw [h2] at hcb; exact absurd hcb (by decide)
                · exact h
            have hrl : rest'.length < m := by
              have hsplit : cs'.length = pre.length + rest'.length := by
                rw [hpre]; simp
              simp at hlen
              omega
            obtain ⟨c2, k, herr, hget, hprop⟩ := ih rest' pos' hrl ⟨cb, hmem, hcb⟩
            refine ⟨c2, 1 + pre.length + k, ?_, ?_, hprop⟩
            · have hsh : pos' + k = pos + (1 + pre.length + k) := by omega
              rw [hsh] at herr
              rw [heq]
              simp only [hscan]
              rw [herr]
              rfl
            · rw [show (1 + pre.length + k) = (pre.length + k) + 1 from by omega]
              rw [List.get?_cons_succ, hpre,
                List.get?_append_right (by omega)]
              simpa using hget
          | error err =>
            obtain ⟨kd, hkd, hgetd⟩ := scanNumber_error cs' (pos + 1) false [c] err hscan
            refine ⟨'.', 1 + kd, ?_, ?_, Or.inr rfl⟩
            · have hsh : pos + 1 + kd = pos + (1 + kd) := by omega
              rw [hsh] at hkd
              rw [heq]
              simp only [hscan]
              rw [hkd]
            · rw [show (1 + kd) = kd + 1 from by omega, List.get?_cons_succ]
              exact hgetd
        · have heq : tokenizeAux (m + 1) (c :: cs') pos =
              .error (.invalidCharacter c pos) := by
            rw [tokenizeAux, if_neg hw, if_neg hplus, if_neg hminus, if_neg hstar,
              if_neg hslash, if_neg hlp, if_neg hrp, if_neg hd]
          by_cases hdot : c = '.'
          · exact ⟨c, 0, by rw [heq]; simp, by simp, Or.inr hdot⟩
          · refine ⟨c, 0, by rw [heq]; simp, by simp, Or.inl ?_⟩
            simp [allowedChar, hw, hplus, hminus, hstar, hslash, hlp, hrp, hd, hdot]

/-- C3: an input containing a character that is not a digit, a decimal
point, whitespace or one of `+ - * / ( )` is rejected with an
`invalidCharacter` error whose character really occurs at the reported
index. -/
theorem invalidCharacter_rejected (s : String)
    (h : ∃ c ∈ s.data, allowedChar c = false) :
    ∃ c i, evaluate s = .error (.invalidCharacter c i) ∧
      s.data.get? i = some c ∧ (allowedChar c = false ∨ c = '.') := by
  obtain ⟨c, k, herr, hget, hprop⟩ :=
    tokenizeAux_invalid (s.data.length + 1) s.data 0 (by omega) h
  rw [Nat.zero_add] at herr
  refine ⟨c, k, ?_, hget, hprop⟩
  simp only [evaluate, tokenize, herr]

theorem invalidCharacter_witness :
    (∃ c i, evaluate "2+3x" = .error (.invalidCharacter c i) ∧
        ("2+3x" : String).data.get? i = some c ∧ (allowedChar c = false ∨ c = '.')) ∧
      evaluate "2+3x" = .error (.invalidCharacter 'x' 3) := by
  constructor
  · exact invalidCharacter_rejected "2+3x" ⟨'x', by decide, by decide⟩
  · simp +decide [evaluate, tokenize, tokenizeAux, scanNumber, numValue, digitsVal,
      charToRat, parseExpression, parseTerm, parseFactor, parseTermLoop,
      parseExpressionLoop, Except.map]

/-! ### Claim theorems: empty input, determinism, typed results,
history, failure atomicity, the hook -/

/-- C5: evaluating an input that yields zero tokens (empty or
whitespace-only) fails with `emptyExpression` and never returns a
numeric result. -/
theorem emptyExpression_on_blank (s : String)
    (h : ∀ c ∈ s.data, c.isWhitespace = true) :
    evaluate s = .error .emptyExpression := by
  have ht := tokenizeAux_whitespace (s.data.length + 1) s.data 0 (by omega) h
  simp only [evaluate, tokenize, ht]

theorem emptyExpression_on_blank_witness :
    evaluate "" = .error .emptyExpression ∧
      evaluate "   " = .error .emptyExpression :=
  ⟨emptyExpression_on_blank "" (by decide),
    emptyExpression_on_blank "   " (by decide)⟩

/-- C6: evaluation is a deterministic function of the input string —
two calls on the same string yield the same result. -/
theorem evaluate_deterministic (s : String) (r₁ r₂ : Except EvalError ℚ)
    (h₁ : evaluate s = r₁) (h₂ : evaluate s = r₂) : r₁ = r₂ := by
  rw [← h₁, ← h₂]

theorem evaluate_deterministic_witness :
    (Except.ok 2 : Except EvalError ℚ) = Except.ok 2 := by
  have h : evaluate "1+1" = Except.ok 2 := by
    simp +decide [evaluate, tokenize, tokenizeAux, scanNumber, numValue,
      digitsVal, charToRat, parseExpression, parseTerm, parseFactor,
      parseTermLoop, parseExpressionLoop, Except.map, one_add_one_eq_two]
  exact evaluate_deterministic "1+1" (Except.ok 2) (Except.ok 2) h h

/-- C7: every evaluation returns a typed result to its caller — a
numeric value or a member of the closed `EvalError` taxonomy; the core
is a pure function of the input with no logging, retry or partial
result. -/
theorem errors_as_typed_results (s : String) :
    (∃ v, evaluate s = .ok v) ∨ (∃ err : EvalError, evaluate s = .error err) := by
  cases h : evaluate s with
  | ok v => exact Or.inl ⟨v, rfl⟩
  | error err => exact Or.inr ⟨err, rfl⟩

theorem errors_as_typed_results_witness :
    (∃ v, evaluate "5/0" = .ok v) ∨
      (∃ err : EvalError, evaluate "5/0" = .error err) :=
  errors_as_typed_results "5/0"

/-- C8 counterexample: the host does not append the new record after
the previous entries — `addCalculation` places it before them. -/
theorem history_prepend_counterexample :
    addCalculation ⟨"2+2", "4"⟩ [⟨"1+1", "2"⟩] ≠
      [⟨"1+1", "2"⟩] ++ [⟨"2+2", "4"⟩] := by decide

/-- C8 (amended): after every successful evaluation the host prepends
`{expression, result}` to the history: the new history is the new
record followed by all previous entries unchanged. -/
theorem history_prepend :
    (∀ (c : Calculation) (h : List Calculation),
        (addCalculation c h).head? = some c ∧ (addCalculation c h).tail = h ∧
          (addCalculation c h).length = h.length + 1) ∧
      ∀ f st r, f st.input = some r →
        (handleCalculate f st).history = Calculation.mk st.input r :: st.history := by
  constructor
  · exact fun c h => ⟨rfl, rfl, rfl⟩
  · intro f st r hr
    simp [handleCalculate, hr, addCalculation]

theorem history_prepend_witness :
    (addCalculation ⟨"1+1", "2"⟩ []).head? = some ⟨"1+1", "2"⟩ ∧
      (handleCalculate (fun _ => some "2") ⟨"1+1", []⟩).history = [⟨"1+1", "2"⟩] :=
  ⟨(history_prepend.1 ⟨"1+1", "2"⟩ []).1,
    history_prepend.2 (fun _ => some "2") ⟨"1+1", []⟩ "2" rfl⟩

/-- C9: when evaluation throws, `handleCalculate` takes the catch
branch: neither `addCalculation` nor `setInput` runs, so the input and
the history are exactly what they were before the call. -/
theorem handleCalculate_failure_atomic (f : String → Option String)
    (st : CalcState) (h : f st.input = none) : handleCalculate f st = st := by
  simp [handleCalculate, h]

theorem handleCalculate_failure_atomic_witness :
    handleCalculate (fun _ => none) ⟨"2+", [⟨"1+1", "2"⟩]⟩ =
      ⟨"2+", [⟨"1+1", "2"⟩]⟩ :=
  handleCalculate_failure_atomic (fun _ => none) ⟨"2+", [⟨"1+1", "2"⟩]⟩ rfl

/-- C10: `useCalculator` throws the provider error when no
`CalculatorProvider` is in scope (context undefined), and otherwise
returns the context value with the history and `addCalculation`. -/
theorem useCalculator_requires_provider :
    useCalculator none =
        .error "useCalculator must be used within a CalculatorProvider" ∧
      ∀ ctx, useCalculator (some ctx) = .ok ctx :=
  ⟨rfl, fun _ => rfl⟩

end CalcSpec
